import Mathlib

/-!
Verification of the kernel_launcher configuration-space, strategy and
tuning-cache core against its specification.

The C++ sources are shallowly embedded: machine integers are modelled as
`Nat`/`Int` (with explicit `% 2^32` where 32-bit overflow matters),
`double` values are modelled as exact rationals, exceptions are modelled
by `Option`, and `std::unordered_map` containers are modelled as
association lists whose insert overwrites the existing key.
-/

namespace KernelLauncher

/-- Model of `TunableValue` (include/kernel_launcher/value.hpp): a tagged
union over empty, signed integer, double, bool and interned string.
Doubles are modelled as rationals; interned strings compare by content,
which matches the interned-pointer comparison of the source. -/
inductive TunableValue where
  | empty : TunableValue
  | int : Int → TunableValue
  | double : Rat → TunableValue
  | bool : Bool → TunableValue
  | string : String → TunableValue
deriving DecidableEq, Repr

/-- Model of `TunableValue::operator==`: values with different tags never
compare equal; values with the same tag compare by payload. -/
def TunableValue.equal : TunableValue → TunableValue → Bool
  | .empty, .empty => true
  | .int a, .int b => a == b
  | .double a, .double b => a == b
  | .bool a, .bool b => a == b
  | .string a, .string b => a == b
  | _, _ => false

/-- Model of the `FOR_INTEGER` conversion `TunableValue::to_<T>` for an
integer target type `T` whose representable range is `[lo, hi]`
(value.hpp): a bool converts to 0 or 1 unconditionally, an integer
converts iff it is in range (`in_range` uses sign-safe comparison, hence
the exact interval test), and every other tag throws `CastException`,
modelled as `none`. -/
def TunableValue.toInteger (lo hi : Int) : TunableValue → Option Int
  | .bool b => some (if b then 1 else 0)
  | .int v => if lo ≤ v ∧ v ≤ hi then some v else none
  | _ => none

/-- Model of `TunableValue::to_string`: the decimal form for integers,
"true"/"false" for bools, the string itself for strings, empty for the
empty value. The formatting of doubles is abstracted by an exact
rendering of the rational payload. -/
def TunableValue.toText : TunableValue → String
  | .int n => toString n
  | .double q => toString q
  | .string s => s
  | .bool b => if b then "true" else "false"
  | .empty => ""

/-- C4: for every integer value `v` and integer target type with range
`[lo, hi]`, the conversion succeeds exactly when `lo ≤ v ≤ hi`;
`Value(true)` converts to 1 and `Value(false)` to 0 for any integer
target; and `Value(1)` and `Value(true)` do not compare equal under
`operator==`. -/
theorem value_casts_spec :
    (∀ (v lo hi : Int),
      (TunableValue.toInteger lo hi (.int v)).isSome = true ↔ lo ≤ v ∧ v ≤ hi)
    ∧ (∀ lo hi : Int, TunableValue.toInteger lo hi (.bool true) = some 1)
    ∧ (∀ lo hi : Int, TunableValue.toInteger lo hi (.bool false) = some 0)
    ∧ TunableValue.equal (.int 1) (.bool true) = false := by
  refine ⟨?_, ?_, ?_, rfl⟩
  · intro v lo hi
    simp only [TunableValue.toInteger]
    by_cases h : lo ≤ v ∧ v ≤ hi <;> simp [h]
  · intro lo hi; rfl
  · intro lo hi; rfl

/-- Model of `TunableParam` (value.hpp): name, declared type, ordered
value domain and default value. The source uses shared-pointer identity;
within one space parameter names are unique (`create_param` throws on a
duplicate name), so structural identity is a faithful stand-in. -/
structure TunableParam where
  name : String
  type : String
  values : List TunableValue
  default_value : TunableValue
deriving DecidableEq, Repr

/-- Model of `Config` (config.hpp): an `unordered_map` from parameter to
value, represented as an association list with unique keys. -/
structure Config where
  entries : List (TunableParam × TunableValue)
deriving DecidableEq, Repr

/-- Lookup in the association list backing a `Config`. -/
def findEntry : List (TunableParam × TunableValue) → TunableParam → Option TunableValue
  | [], _ => none
  | (q, v) :: rest, p => if q = p then some v else findEntry rest p

/-- Model of `Config::operator[]` / `Config::at`: the bound value of a
parameter, `none` when the parameter is unbound (the source throws an
unknown-parameter error). -/
def Config.find (c : Config) (p : TunableParam) : Option TunableValue :=
  findEntry c.entries p

/-- Model of `Config::insert` into the underlying `unordered_map`:
overwrite the key when present, otherwise add the binding. -/
def Config.insert (c : Config) (p : TunableParam) (v : TunableValue) : Config :=
  if c.entries.any (fun e => e.1 == p) then
    ⟨c.entries.map (fun e => if e.1 = p then (p, v) else e)⟩
  else
    ⟨c.entries ++ [(p, v)]⟩

/-- Model of `Config::size`: the number of bound parameters. -/
def Config.size (c : Config) : Nat :=
  c.entries.length

/-- Model of `ConfigSpace` (the vector-based copy used by the iterator
and the cache): parameters in declaration order plus a list of boolean
restrictions. Each `Expr<bool>` restriction is embedded by its
evaluation function on a complete binding, which is the only way
`ConfigSpace` consumes it (`Eval eval = config.get(); eval(r)`). -/
structure ConfigSpace where
  params : List TunableParam
  restrictions : List (Config → Bool)

/-- Model of `ConfigSpace::size`: the product of the domain sizes (a
parameter with an empty domain gives size 0). The uint64 overflow check
of the source throws instead of wrapping, so the mathematical product is
the faithful value whenever `size()` returns at all. -/
def ConfigSpace.size (s : ConfigSpace) : Nat :=
  (s.params.map (fun p => p.values.length)).prod

/-- The mixed-radix decoding loop inside `ConfigSpace::get`: each
parameter in declaration order consumes its domain size as the next
radix digit (`i = index % n; index /= n`). -/
def decodeBinding : List TunableParam → Nat → List (TunableParam × TunableValue)
  | [], _ => []
  | p :: ps, index =>
    (p, p.values.getD (index % p.values.length) .empty)
      :: decodeBinding ps (index / p.values.length)

/-- Model of `ConfigSpace::get(index, config)` (the copy at
src/unnamed/part_008 lines 553-572): fill `config` with the decoded
binding, then return whether every restriction evaluates to true on it.
The source writes through an out-parameter; the model returns the filled
config together with the boolean result. -/
def ConfigSpace.get (s : ConfigSpace) (index : Nat) : Config × Bool :=
  let config : Config := ⟨decodeBinding s.params index⟩
  (config, s.restrictions.all (fun r => r config))

/-- The domain-membership loop of `ConfigSpace::is_valid`: for each
parameter, look the value up (throwing, i.e. `none`, when unbound) and
reject it when it equals no domain entry; when all parameters pass,
report whether every restriction holds. -/
def isValidLoop (restrictions : List (Config → Bool)) (config : Config) :
    List TunableParam → Option Bool
  | [] => some (restrictions.all (fun r => r config))
  | p :: ps =>
    match config.find p with
    | none => none
    | some v =>
      if p.values.any (fun allowed => v == allowed) then
        isValidLoop restrictions config ps
      else
        some false

/-- Model of `ConfigSpace::is_valid` (src/unnamed/part_008 lines
574-602): reject when the bound-parameter count differs from the
parameter count, then check each parameter's value for domain
membership, then evaluate every restriction. `none` models the
unknown-parameter exception thrown when a parameter is unbound. -/
def ConfigSpace.isValid (s : ConfigSpace) (config : Config) : Option Bool :=
  if config.size ≠ s.params.length then some false
  else isValidLoop s.restrictions config s.params

/-- The dummy entry used by positional `getD` statements. -/
def dummyParam : TunableParam :=
  ⟨"", "", [], .empty⟩

/-- The radix weight of position `j`: the product of the domain sizes of
the parameters declared before `j`. -/
def radixWeight (ps : List TunableParam) (j : Nat) : Nat :=
  ((ps.take j).map (fun p => p.values.length)).prod

theorem decodeBinding_length (ps : List TunableParam) (i : Nat) :
    (decodeBinding ps i).length = ps.length := by
  induction ps generalizing i with
  | nil => rfl
  | cons p ps ih => simp [decodeBinding, ih]

theorem decodeBinding_getD (ps : List TunableParam) (i j : Nat)
    (hj : j < ps.length) :
    (decodeBinding ps i).getD j (dummyParam, .empty) =
      (ps.getD j dummyParam,
        (ps.getD j dummyParam).values.getD
          ((i / radixWeight ps j) % (ps.getD j dummyParam).values.length)
          .empty) := by
  induction ps generalizing i j with
  | nil => exact absurd hj (by simp)
  | cons p ps ih =>
    cases j with
    | zero => simp [decodeBinding, radixWeight]
    | succ j =>
      have hj' : j < ps.length := by simpa using hj
      simp only [decodeBinding, List.getD_cons_succ, ih _ j hj']
      have : i / p.values.length / radixWeight ps j =
          i / radixWeight (p :: ps) (j + 1) := by
        rw [Nat.div_div_eq_div_mul]
        simp [radixWeight, List.take_succ_cons]
      rw [this]

/-- C2: for every index `i < size()`, `ConfigSpace::get(i, config)` fills
`config` with the mixed-radix decoding of `i` over the parameters in
declaration order (position `j` is bound to
`domain_j[(i / Π_(l<j) k_l) % k_j]`), it fills that binding whether or
not it is valid, and it returns true iff every restriction evaluates to
true on the binding. -/
theorem configSpace_get_spec (s : ConfigSpace) (i : Nat) (_hi : i < s.size) :
    ((s.get i).1.entries.length = s.params.length
      ∧ ∀ j, j < s.params.length →
          (s.get i).1.entries.getD j (dummyParam, .empty) =
            (s.params.getD j dummyParam,
              (s.params.getD j dummyParam).values.getD
                ((i / radixWeight s.params j)
                  % (s.params.getD j dummyParam).values.length)
                .empty))
    ∧ ((s.get i).2 = true ↔ ∀ r ∈ s.restrictions, r (s.get i).1 = true) := by
  refine ⟨⟨decodeBinding_length s.params i, fun j hj => ?_⟩, ?_⟩
  · exact decodeBinding_getD s.params i j hj
  · simp [ConfigSpace.get]

/-- A small concrete space used by witnesses: `foo ∈ [1,2,3]` and
`bar ∈ [1,2]` with the restriction `foo ≠ 3`. -/
def fooParam : TunableParam :=
  ⟨"foo", "int", [.int 1, .int 2, .int 3], .int 1⟩

def barParam : TunableParam :=
  ⟨"bar", "int", [.int 1, .int 2], .int 1⟩

def sampleSpace : ConfigSpace :=
  ⟨[fooParam, barParam], [fun c => !(c.find fooParam == some (.int 3))]⟩

theorem configSpace_get_spec_witness :
    4 < sampleSpace.size
      ∧ ((sampleSpace.get 4).2 = true ↔
          ∀ r ∈ sampleSpace.restrictions, r (sampleSpace.get 4).1 = true) :=
  ⟨by decide, (configSpace_get_spec sampleSpace 4 (by decide)).2⟩

theorem findEntry_isSome_iff (entries : List (TunableParam × TunableValue))
    (p : TunableParam) :
    (findEntry entries p).isSome = true ↔ p ∈ entries.map Prod.fst := by
  induction entries with
  | nil => simp [findEntry]
  | cons e rest ih =>
    obtain ⟨q, v⟩ := e
    by_cases h : q = p
    · subst h; simp [findEntry]
    · simpa [findEntry, h, Ne.symm h] using ih

theorem config_find_isSome_iff (c : Config) (p : TunableParam) :
    (c.find p).isSome = true ↔ p ∈ c.entries.map Prod.fst :=
  findEntry_isSome_iff c.entries p

theorem isValidLoop_eq_some_true_iff (re : List (Config → Bool)) (c : Config)
    (ps : List TunableParam) :
    isValidLoop re c ps = some true ↔
      ((∀ p ∈ ps, ∃ v, c.find p = some v ∧ v ∈ p.values)
        ∧ ∀ r ∈ re, r c = true) := by
  induction ps with
  | nil => simp [isValidLoop]
  | cons p ps ih =>
    cases hf : c.find p with
    | none =>
      simp only [isValidLoop, hf, List.mem_cons]
      constructor
      · intro h; cases h
      · rintro ⟨hall, -⟩
        obtain ⟨v, hv, -⟩ := hall p (Or.inl rfl)
        rw [hf] at hv; cases hv
    | some v =>
      by_cases hmem : v ∈ p.values
      · have hany : p.values.any (fun allowed => v == allowed) = true := by
          simp only [List.any_eq_true]
          exact ⟨v, hmem, by simp⟩
        simp only [isValidLoop, hf, hany, if_true, ih]
        constructor
        · rintro ⟨hall, hre⟩
          refine ⟨fun q hq => ?_, hre⟩
          rcases List.mem_cons.mp hq with h | h
          · subst h; exact ⟨v, hf, hmem⟩
          · exact hall q h
        · rintro ⟨hall, hre⟩
          exact ⟨fun q hq => hall q (List.mem_cons_of_mem _ hq), hre⟩
      · have hany : p.values.any (fun allowed => v == allowed) = false := by
          simp only [List.any_eq_false]
          intro x hx
          simp only [beq_iff_eq]
          intro hvx; exact hmem (hvx ▸ hx)
        simp only [isValidLoop, hf, hany, Bool.false_eq_true, if_false,
          List.mem_cons]
        constructor
        · intro h; cases h
        · rintro ⟨hall, -⟩
          obtain ⟨w, hw, hwmem⟩ := hall p (Or.inl rfl)
          rw [hf] at hw
          cases hw; exact absurd hwmem hmem

/-- C3 (amended): for a config with distinct keys and a space with
distinct parameters, `is_valid` returns true iff the config's bound
parameter set equals the space's parameter set, every bound value lies
in its parameter's domain (a value merely equal to the default is NOT
accepted), and every restriction evaluates to true. (`none` is the
unknown-parameter exception; it cannot occur under these conditions.) -/
theorem configSpace_isValid_amended (s : ConfigSpace) (c : Config)
    (hkeys : (c.entries.map Prod.fst).Nodup) (hparams : s.params.Nodup) :
    s.isValid c = some true ↔
      ((∀ p : TunableParam, (c.find p).isSome = true ↔ p ∈ s.params)
        ∧ (∀ p ∈ s.params, ∀ v, c.find p = some v → v ∈ p.values)
        ∧ (∀ r ∈ s.restrictions, r c = true)) := by
  constructor
  · intro h
    simp only [ConfigSpace.isValid] at h
    by_cases hsz : c.size ≠ s.params.length
    · rw [if_pos hsz] at h; cases h
    · rw [if_neg hsz] at h
      push_neg at hsz
      obtain ⟨hall, hre⟩ := (isValidLoop_eq_some_true_iff _ _ _).mp h
      have hsub : s.params ⊆ c.entries.map Prod.fst := by
        intro p hp
        obtain ⟨v, hv, -⟩ := hall p hp
        exact (config_find_isSome_iff c p).mp (by simp [hv])
      have hperm : List.Perm s.params (c.entries.map Prod.fst) := by
        refine List.Subperm.perm_of_length_le
          (List.subperm_of_subset hparams hsub) ?_
        simp only [List.length_map]
        exact le_of_eq hsz
      refine ⟨fun p => ?_, fun p hp v hv => ?_, hre⟩
      · rw [config_find_isSome_iff]
        exact (hperm.mem_iff).symm
      · obtain ⟨w, hw, hmem⟩ := hall p hp
        rw [hv] at hw; cases hw; exact hmem
  · rintro ⟨hbound, hdom, hre⟩
    have hmemiff : ∀ p, p ∈ c.entries.map Prod.fst ↔ p ∈ s.params := by
      intro p
      rw [← config_find_isSome_iff]
      exact hbound p
    have hperm : List.Perm (c.entries.map Prod.fst) s.params :=
      (List.perm_ext_iff_of_nodup hkeys hparams).mpr hmemiff
    have hsz : c.size = s.params.length := by
      have := hperm.length_eq
      simpa [Config.size] using this
    simp only [ConfigSpace.isValid, hsz, ne_eq, not_true_eq_false, if_false,
      ite_false]
    rw [isValidLoop_eq_some_true_iff]
    refine ⟨fun p hp => ?_, hre⟩
    have : (c.find p).isSome = true := (hbound p).mpr hp
    obtain ⟨v, hv⟩ := Option.isSome_iff_exists.mp this
    exact ⟨v, hv, hdom p hp v hv⟩

/-- A parameter whose default value 0 lies outside its domain, and a
config binding it to that default. -/
def outsideDefaultParam : TunableParam :=
  ⟨"x", "int", [.int 1, .int 2], .int 0⟩

def outsideDefaultSpace : ConfigSpace :=
  ⟨[outsideDefaultParam], []⟩

def outsideDefaultConfig : Config :=
  ⟨[(outsideDefaultParam, .int 0)]⟩

/-- C3 (counterexample): the claim's "in the domain OR equal to the
default" clause fails on the code. For the parameter `x ∈ [1,2]` with
default 0 and the config binding `x := 0`, the claimed equivalence is
false: all three claimed conditions hold (the sets match, the value
equals the default, there are no restrictions) yet `is_valid` returns
false, because the code accepts only domain membership. -/
theorem configSpace_isValid_claim_counterexample :
    ¬ ((outsideDefaultSpace.isValid outsideDefaultConfig = some true) ↔
      ((∀ p : TunableParam,
          (outsideDefaultConfig.find p).isSome = true ↔
            p ∈ outsideDefaultSpace.params)
        ∧ (∀ p ∈ outsideDefaultSpace.params, ∀ v,
            outsideDefaultConfig.find p = some v →
              (v ∈ p.values ∨ v = p.default_value))
        ∧ (∀ r ∈ outsideDefaultSpace.restrictions, r outsideDefaultConfig = true))) := by
  intro h
  have hcode : outsideDefaultSpace.isValid outsideDefaultConfig = some false := by
    decide
  have hclaim :
      (∀ p : TunableParam,
          (outsideDefaultConfig.find p).isSome = true ↔
            p ∈ outsideDefaultSpace.params)
        ∧ (∀ p ∈ outsideDefaultSpace.params, ∀ v,
            outsideDefaultConfig.find p = some v →
              (v ∈ p.values ∨ v = p.default_value))
        ∧ (∀ r ∈ outsideDefaultSpace.restrictions, r outsideDefaultConfig = true) := by
    refine ⟨fun p => ?_, fun p hp v hv => ?_, fun r hr => ?_⟩
    · rw [config_find_isSome_iff]
      simp [outsideDefaultConfig, outsideDefaultSpace]
    · simp only [outsideDefaultSpace, List.mem_singleton] at hp
      subst hp
      rw [show outsideDefaultConfig.find outsideDefaultParam
          = some (TunableValue.int 0) from rfl] at hv
      injection hv with hv0
      subst hv0
      right
      rfl
    · simp [outsideDefaultSpace] at hr
  rw [h.mpr hclaim] at hcode
  cases hcode

theorem configSpace_isValid_amended_witness :
    ((outsideDefaultConfig.entries.map Prod.fst).Nodup
        ∧ outsideDefaultSpace.params.Nodup)
      ∧ (outsideDefaultSpace.isValid outsideDefaultConfig = some true ↔
          ((∀ p : TunableParam,
              (outsideDefaultConfig.find p).isSome = true ↔
                p ∈ outsideDefaultSpace.params)
            ∧ (∀ p ∈ outsideDefaultSpace.params, ∀ v,
                outsideDefaultConfig.find p = some v → v ∈ p.values)
            ∧ (∀ r ∈ outsideDefaultSpace.restrictions,
                r outsideDefaultConfig = true))) :=
  ⟨⟨by decide, by decide⟩,
    configSpace_isValid_amended outsideDefaultSpace outsideDefaultConfig
      (by decide) (by decide)⟩

/-- Model of `KernelBuilder` (expr.hpp / kernel.cpp): a `ConfigSpace`
extended with the kernel description. The expression payloads
(`Expr<uint32_t>`, `Expr<std::string>`, `Expr<bool>`,
`Expr<TemplateArg>`) are only stored and moved by the setters under
scrutiny, so they are carried as type parameters `U S B T`. -/
structure KernelBuilder (U S B T : Type) extends ConfigSpace where
  kernel_source : String
  kernel_name : String
  block_size_exprs : U × U × U
  grid_divisor_exprs : U × U × U
  shared_mem : U
  template_args : List T
  compile_flags : List S
  defines : List (String × S)
  assertions : List B

/-- Model of `KernelBuilder::grid_divisors(x, y, z)`: overwrite the three
grid-divisor expressions. -/
def KernelBuilder.grid_divisors {U S B T : Type} (b : KernelBuilder U S B T)
    (x y z : U) : KernelBuilder U S B T :=
  { b with grid_divisor_exprs := (x, y, z) }

/-- Model of `KernelBuilder::block_size(x, y, z)`: first call
`grid_divisors(x, y, z)`, then overwrite the three block-size
expressions. -/
def KernelBuilder.block_size {U S B T : Type} (b : KernelBuilder U S B T)
    (x y z : U) : KernelBuilder U S B T :=
  let b1 := b.grid_divisors x y z
  { b1 with block_size_exprs := (x, y, z) }

/-- C10: `block_size(x, y, z)` overwrites the grid-divisor expressions
with `(x, y, z)` as well as the block-size expressions, leaves every
other builder field (shared memory, template arguments, flags, defines,
assertions, kernel name/source, parameter space) unchanged, and
therefore a preceding `grid_divisors(u, v, w)` call has no effect on the
resulting builder. -/
theorem kernelBuilder_block_size_overwrites_grid_divisors
    {U S B T : Type} (b : KernelBuilder U S B T) (x y z u v w : U) :
    ((b.block_size x y z).grid_divisor_exprs = (x, y, z)
      ∧ (b.block_size x y z).block_size_exprs = (x, y, z))
    ∧ ((b.grid_divisors u v w).block_size x y z = b.block_size x y z)
    ∧ ((b.block_size x y z).shared_mem = b.shared_mem
      ∧ (b.block_size x y z).template_args = b.template_args
      ∧ (b.block_size x y z).compile_flags = b.compile_flags
      ∧ (b.block_size x y z).defines = b.defines
      ∧ (b.block_size x y z).assertions = b.assertions
      ∧ (b.block_size x y z).kernel_source = b.kernel_source
      ∧ (b.block_size x y z).kernel_name = b.kernel_name
      ∧ (b.block_size x y z).toConfigSpace = b.toConfigSpace) :=
  ⟨⟨rfl, rfl⟩, rfl, rfl, rfl, rfl, rfl, rfl, rfl, rfl, rfl⟩

/-- 32-bit truncation for `uint32_t` arithmetic. -/
def u32 (x : Nat) : Nat :=
  x % 4294967296

/-- Model of `murmur_hash2` (src/unnamed/part_008 lines 207-220): the
Murmur2 mixing of a 32-bit key with a seed. Multiplications are
truncated to 32 bits; xors and right shifts of 32-bit values stay in
range. -/
def murmur_hash2 (key seed : Nat) : Nat :=
  let m := 0x5bd1e995
  let k1 := u32 (u32 key * m)
  let k2 := k1 ^^^ (k1 >>> 24)
  let k3 := u32 (k2 * m)
  let h1 := u32 (u32 seed * m)
  let h2 := h1 ^^^ k3
  let h3 := h2 ^^^ (h2 >>> 13)
  let h4 := u32 (h3 * m)
  h4 ^^^ (h4 >>> 15)

/-- One Feistel round of `encrypt_index`:
`new_left = right; new_right = (left ^ murmur_hash2(right, seed)) & mask`. -/
def feistelRound (halfBits : Nat) (lr : Nat × Nat) (seed : Nat) : Nat × Nat :=
  (lr.2, (lr.1 ^^^ murmur_hash2 lr.2 seed) &&& (2 ^ halfBits - 1))

/-- Model of `encrypt_index` (src/unnamed/part_008 lines 222-244): split
the index into two `halfBits`-bit halves, run one Feistel round per
round key, and recombine. The recombination shift `left << half_bits`
is performed on a `uint32_t`, hence the 32-bit truncation. -/
def encrypt_index (index halfBits : Nat) (seeds : List Nat) : Nat :=
  let mask := 2 ^ halfBits - 1
  let left := (index >>> halfBits) &&& mask
  let right := index &&& mask
  let p := seeds.foldl (feistelRound halfBits) (left, right)
  u32 (p.1 <<< halfBits) ||| p.2

/-- The `log4` loop of `ConfigIterator::reset`: start at 1 and increment
while `size >= 1 << (2 * log4)`. Fuel 64 suffices for every uint64
size. -/
def log4Loop : Nat → Nat → Nat → Nat
  | 0, l, _ => l
  | fuel + 1, l, size =>
    if 2 ^ (2 * l) ≤ size then log4Loop fuel (l + 1) size else l

def log4Of (size : Nat) : Nat :=
  log4Loop 64 1 size

/-- Model of the Feistel-variant `ConfigIterator` (src/unnamed/part_008
lines 193-257): the space, the running counter `index_`, the cached
`size_` and `log4_`, and the four random round keys drawn by `reset`
(carried as an arbitrary list of naturals). -/
structure ConfigIterator where
  space : ConfigSpace
  index : Nat
  size : Nat
  log4 : Nat
  murmur_rounds : List Nat

/-- Model of `ConfigSpace::iterate` followed by `ConfigIterator::reset`,
for a given draw of the random round keys. -/
def ConfigSpace.iterate (s : ConfigSpace) (seeds : List Nat) : ConfigIterator :=
  { space := s
    index := 0
    size := s.size
    log4 := log4Of s.size
    murmur_rounds := seeds }

/-- Model of `ConfigIterator::next`: while the counter has not walked
through the whole `2^(2*log4)` block, encrypt it, advance it, and
return the decoded configuration when the encrypted index is in range
and valid; `none` models returning false at exhaustion. -/
def ConfigIterator.next (it : ConfigIterator) : Option (Config × ConfigIterator) :=
  if _h : it.index < 2 ^ (2 * it.log4) then
    let result := encrypt_index it.index it.log4 it.murmur_rounds
    let it' : ConfigIterator := { it with index := it.index + 1 }
    if result < it.size ∧ (it.space.get result).2 = true then
      some ((it.space.get result).1, it')
    else
      it'.next
  else
    none
termination_by 2 ^ (2 * it.log4) - it.index
decreasing_by simp_wf; omega

/-- The configurations produced by `fuel` successive calls of `next`,
stopping at the first unsuccessful call; its length is the number of
successful `next` calls. -/
def ConfigIterator.run : Nat → ConfigIterator → List Config
  | 0, _ => []
  | fuel + 1, it =>
    match it.next with
    | none => []
    | some (c, it') => c :: ConfigIterator.run fuel it'

theorem log4Loop_le (fuel l size L : Nat) (h1 : l ≤ L)
    (h2 : size < 2 ^ (2 * L)) : log4Loop fuel l size ≤ L := by
  induction fuel generalizing l with
  | zero => exact h1
  | succ fuel ih =>
    simp only [log4Loop]
    by_cases hc : 2 ^ (2 * l) ≤ size
    · rw [if_pos hc]
      refine ih (l + 1) ?_
      have hlt : 2 ^ (2 * l) < 2 ^ (2 * L) := lt_of_le_of_lt hc h2
      have h2l : 2 * l < 2 * L :=
        (Nat.pow_lt_pow_iff_right (by omega : 1 < 2)).mp hlt
      omega
    · rw [if_neg hc]; exact h1

theorem log4Loop_size_lt (fuel l size : Nat)
    (h : size < 2 ^ (2 * (l + fuel))) :
    size < 2 ^ (2 * log4Loop fuel l size) := by
  induction fuel generalizing l with
  | zero => simpa using h
  | succ fuel ih =>
    simp only [log4Loop]
    by_cases hc : 2 ^ (2 * l) ≤ size
    · rw [if_pos hc]
      exact ih (l + 1) (by have := h; ring_nf at this ⊢; omega)
    · rw [if_neg hc]; omega

theorem log4Of_le_15 (size : Nat) (h : size < 2 ^ 30) : log4Of size ≤ 15 :=
  log4Loop_le 64 1 size 15 (by omega) (by simpa using h)

theorem log4Of_size_lt (size : Nat) (h : size < 2 ^ 30) :
    size < 2 ^ (2 * log4Of size) := by
  refine log4Loop_size_lt 64 1 size ?_
  calc size < 2 ^ 30 := h
    _ ≤ 2 ^ (2 * (1 + 64)) := Nat.pow_le_pow_right (by omega) (by omega)

theorem and_mask_lt (x h : Nat) : x &&& (2 ^ h - 1) < 2 ^ h := by
  rw [Nat.and_pow_two_sub_one_eq_mod]
  exact Nat.mod_lt _ (Nat.pos_pow_of_pos h (by omega))

/-- The inverse of one Feistel round, used only to establish that
`encrypt_index` is injective. -/
def feistelRoundInv (halfBits : Nat) (lr : Nat × Nat) (seed : Nat) : Nat × Nat :=
  ((lr.2 ^^^ murmur_hash2 lr.1 seed) &&& (2 ^ halfBits - 1), lr.1)

theorem feistelRoundInv_round (h l r seed : Nat) (hl : l < 2 ^ h) :
    feistelRoundInv h (feistelRound h (l, r) seed) seed = (l, r) := by
  simp only [feistelRound, feistelRoundInv]
  refine Prod.ext ?_ rfl
  show ((l ^^^ murmur_hash2 r seed) &&& (2 ^ h - 1) ^^^ murmur_hash2 r seed)
      &&& (2 ^ h - 1) = l
  rw [Nat.and_xor_distrib_right, Nat.and_assoc, Nat.and_self,
    Nat.and_xor_distrib_right, Nat.xor_cancel_right,
    Nat.and_pow_two_sub_one_eq_mod, Nat.mod_eq_of_lt hl]

theorem foldl_feistelRound_lt (h : Nat) (seeds : List Nat) (lr : Nat × Nat)
    (hl : lr.1 < 2 ^ h) (hr : lr.2 < 2 ^ h) :
    (seeds.foldl (feistelRound h) lr).1 < 2 ^ h
      ∧ (seeds.foldl (feistelRound h) lr).2 < 2 ^ h := by
  induction seeds generalizing lr with
  | nil => exact ⟨hl, hr⟩
  | cons s ss ih =>
    simp only [List.foldl_cons]
    exact ih (feistelRound h lr s) hr (and_mask_lt _ _)

theorem foldl_feistelRoundInv_foldl (h : Nat) (seeds : List Nat)
    (lr : Nat × Nat) (hl : lr.1 < 2 ^ h) (hr : lr.2 < 2 ^ h) :
    seeds.reverse.foldl (feistelRoundInv h)
      (seeds.foldl (feistelRound h) lr) = lr := by
  induction seeds generalizing lr with
  | nil => rfl
  | cons s ss ih =>
    obtain ⟨l, r⟩ := lr
    simp only [List.foldl_cons, List.reverse_cons, List.foldl_append,
      List.foldl_cons, List.foldl_nil]
    rw [ih (feistelRound h (l, r) s) hr (and_mask_lt _ _)]
    exact feistelRoundInv_round h l r s hl

theorem combine_shiftRight (l r h : Nat) (hr : r < 2 ^ h) :
    ((l <<< h) ||| r) >>> h = l := by
  refine Nat.eq_of_testBit_eq (fun j => ?_)
  rw [Nat.testBit_shiftRight, Nat.testBit_or, Nat.testBit_shiftLeft]
  have h1 : h ≤ h + j := by omega
  have h2 : h + j - h = j := by omega
  have h3 : r < 2 ^ (h + j) :=
    lt_of_lt_of_le hr (Nat.pow_le_pow_right (by omega) (by omega))
  rw [Nat.testBit_lt_two_pow h3]
  simp [h1, h2]

theorem combine_and (l r h : Nat) (hr : r < 2 ^ h) :
    ((l <<< h) ||| r) &&& (2 ^ h - 1) = r := by
  rw [Nat.and_distrib_right, Nat.and_pow_two_sub_one_eq_mod,
    Nat.and_pow_two_sub_one_eq_mod, Nat.shiftLeft_eq, Nat.mul_mod_left,
    Nat.mod_eq_of_lt hr, Nat.zero_or]

theorem encrypt_index_lt (i h : Nat) (seeds : List Nat) (hh : h ≤ 15) :
    encrypt_index i h seeds < 2 ^ (2 * h) := by
  simp only [encrypt_index]
  have hp := foldl_feistelRound_lt h seeds
    ((i >>> h) &&& (2 ^ h - 1), i &&& (2 ^ h - 1))
    (and_mask_lt _ _) (and_mask_lt _ _)
  set p := seeds.foldl (feistelRound h)
    ((i >>> h) &&& (2 ^ h - 1), i &&& (2 ^ h - 1))
  have hshift : p.1 <<< h < 2 ^ (2 * h) := by
    rw [Nat.shiftLeft_eq, two_mul, pow_add]
    exact Nat.mul_lt_mul_of_lt_of_le hp.1 (le_refl _) (Nat.pos_pow_of_pos h (by omega))
  have hu : u32 (p.1 <<< h) = p.1 <<< h := by
    refine Nat.mod_eq_of_lt (lt_of_lt_of_le hshift ?_)
    calc (2 : Nat) ^ (2 * h) ≤ 2 ^ 30 := Nat.pow_le_pow_right (by omega) (by omega)
      _ ≤ 4294967296 := by norm_num
  rw [hu]
  exact Nat.or_lt_two_pow hshift
    (lt_of_lt_of_le hp.2 (Nat.pow_le_pow_right (by omega) (by omega)))

theorem encrypt_index_injOn (h : Nat) (seeds : List Nat) (hh : h ≤ 15)
    (i j : Nat) (hi : i < 2 ^ (2 * h)) (hj : j < 2 ^ (2 * h))
    (heq : encrypt_index i h seeds = encrypt_index j h seeds) : i = j := by
  have key : ∀ x : Nat, x < 2 ^ (2 * h) →
      seeds.reverse.foldl (feistelRoundInv h)
          (encrypt_index x h seeds >>> h,
            encrypt_index x h seeds &&& (2 ^ h - 1))
        = ((x >>> h) &&& (2 ^ h - 1), x &&& (2 ^ h - 1)) := by
    intro x hx
    have hp := foldl_feistelRound_lt h seeds
      ((x >>> h) &&& (2 ^ h - 1), x &&& (2 ^ h - 1))
      (and_mask_lt _ _) (and_mask_lt _ _)
    set p := seeds.foldl (feistelRound h)
      ((x >>> h) &&& (2 ^ h - 1), x &&& (2 ^ h - 1)) with hpdef
    have hu : u32 (p.1 <<< h) = p.1 <<< h := by
      refine Nat.mod_eq_of_lt ?_
      rw [Nat.shiftLeft_eq]
      calc p.1 * 2 ^ h < 2 ^ h * 2 ^ h :=
            Nat.mul_lt_mul_of_lt_of_le hp.1 (le_refl _)
              (Nat.pos_pow_of_pos h (by omega))
        _ = 2 ^ (2 * h) := by rw [two_mul, pow_add]
        _ ≤ 2 ^ 30 := Nat.pow_le_pow_right (by omega) (by omega)
        _ ≤ 4294967296 := by norm_num
    have he : encrypt_index x h seeds = (p.1 <<< h) ||| p.2 := by
      simp only [encrypt_index, ← hpdef, hu]
    rw [he, combine_shiftRight p.1 p.2 h hp.2, combine_and p.1 p.2 h hp.2,
      Prod.mk.eta, hpdef]
    exact foldl_feistelRoundInv_foldl h seeds _ (and_mask_lt _ _) (and_mask_lt _ _)
  have hki := key i hi
  have hkj := key j hj
  rw [heq] at hki
  have hpair := hki.symm.trans hkj
  have h1 : (i >>> h) &&& (2 ^ h - 1) = (j >>> h) &&& (2 ^ h - 1) :=
    congrArg Prod.fst hpair
  have h2 : i &&& (2 ^ h - 1) = j &&& (2 ^ h - 1) :=
    congrArg Prod.snd hpair
  have hhh : (2 : Nat) ^ (2 * h) = 2 ^ h * 2 ^ h := by rw [two_mul, pow_add]
  have hdivi : i / 2 ^ h < 2 ^ h :=
    Nat.div_lt_of_lt_mul (by rw [← hhh]; exact hi)
  have hdivj : j / 2 ^ h < 2 ^ h :=
    Nat.div_lt_of_lt_mul (by rw [← hhh]; exact hj)
  rw [Nat.and_pow_two_sub_one_eq_mod, Nat.and_pow_two_sub_one_eq_mod,
    Nat.shiftRight_eq_div_pow, Nat.shiftRight_eq_div_pow,
    Nat.mod_eq_of_lt hdivi, Nat.mod_eq_of_lt hdivj] at h1
  rw [Nat.and_pow_two_sub_one_eq_mod, Nat.and_pow_two_sub_one_eq_mod] at h2
  have hdi := Nat.div_add_mod i (2 ^ h)
  have hdj := Nat.div_add_mod j (2 ^ h)
  rw [h1, h2] at hdi
  omega

/-- The full yield list of an iterator state: every remaining counter
value is encrypted, and the in-range valid decodings are collected in
order. This closed form is only a proof device. -/
def iterYields (it : ConfigIterator) : List Config :=
  ((List.range (2 ^ (2 * it.log4) - it.index)).map
      (fun k => encrypt_index (it.index + k) it.log4 it.murmur_rounds)).filterMap
    (fun r =>
      if r < it.size ∧ (it.space.get r).2 = true then
        some (it.space.get r).1
      else
        none)

theorem iterYields_stopped (it : ConfigIterator)
    (h : ¬ it.index < 2 ^ (2 * it.log4)) : iterYields it = [] := by
  simp only [iterYields]
  rw [show 2 ^ (2 * it.log4) - it.index = 0 by omega]
  rfl

theorem run_eq_iterYields (n : Nat) :
    ∀ (it : ConfigIterator) (fuel : Nat),
      2 ^ (2 * it.log4) - it.index ≤ n →
      2 ^ (2 * it.log4) - it.index ≤ fuel →
      ConfigIterator.run fuel it = iterYields it := by
  induction n with
  | zero =>
    intro it fuel hn _
    have hstop : ¬ it.index < 2 ^ (2 * it.log4) := by omega
    rw [iterYields_stopped it hstop]
    cases fuel with
    | zero => rfl
    | succ fuel =>
      simp only [ConfigIterator.run]
      rw [ConfigIterator.next, dif_neg hstop]
  | succ n ih =>
    intro it fuel hn hfuel
    by_cases hB : it.index < 2 ^ (2 * it.log4)
    · have hsplit : 2 ^ (2 * it.log4) - it.index
          = (2 ^ (2 * it.log4) - (it.index + 1)) + 1 := by omega
      have hyield : iterYields it =
          (if encrypt_index it.index it.log4 it.murmur_rounds < it.size
              ∧ (it.space.get (encrypt_index it.index it.log4 it.murmur_rounds)).2 = true
            then
              some (it.space.get (encrypt_index it.index it.log4 it.murmur_rounds)).1
            else none).toList
            ++ iterYields { it with index := it.index + 1 } := by
        simp only [iterYields, hsplit, List.range_succ_eq_map, List.map_cons,
          List.filterMap_cons, List.map_map]
        have hfun :
            ((fun k => encrypt_index (it.index + k) it.log4 it.murmur_rounds)
                ∘ Nat.succ)
              = fun k => encrypt_index (it.index + 1 + k) it.log4 it.murmur_rounds := by
          funext k
          simp only [Function.comp_apply, Nat.succ_eq_add_one]
          rw [show it.index + (k + 1) = it.index + 1 + k by omega]
        rw [hfun]
        cases hpick : (if encrypt_index (it.index + 0) it.log4 it.murmur_rounds < it.size
            ∧ (it.space.get (encrypt_index (it.index + 0) it.log4 it.murmur_rounds)).2 = true
          then some (it.space.get (encrypt_index (it.index + 0) it.log4 it.murmur_rounds)).1
          else none) with
        | none =>
          simp only [Nat.add_zero] at hpick
          simp [hpick]
        | some c =>
          simp only [Nat.add_zero] at hpick
          simp [hpick]
      cases fuel with
      | zero => omega
      | succ fuel =>
        simp only [ConfigIterator.run]
        rw [ConfigIterator.next, dif_pos hB]
        simp only []
        by_cases hc : encrypt_index it.index it.log4 it.murmur_rounds < it.size
            ∧ (it.space.get (encrypt_index it.index it.log4 it.murmur_rounds)).2 = true
        · rw [if_pos hc]
          rw [hyield, if_pos hc]
          simp only [Option.toList_some, List.singleton_append, List.cons.injEq,
            true_and]
          exact ih _ fuel (by simp only []; omega) (by simp only []; omega)
        · rw [if_neg hc]
          rw [hyield, if_neg hc]
          simp only [Option.toList_none, List.nil_append]
          have hrw : ConfigIterator.run (fuel + 1) { it with index := it.index + 1 }
              = iterYields { it with index := it.index + 1 } :=
            ih _ (fuel + 1) (by simp only []; omega) (by simp only []; omega)
          rw [← hrw]
          rfl
    · rw [iterYields_stopped it hB]
      cases fuel with
      | zero => rfl
      | succ fuel =>
        simp only [ConfigIterator.run]
        rw [ConfigIterator.next, dif_neg hB]

theorem filterMap_ite {α β : Type} (p : α → Prop) [DecidablePred p]
    (f : α → β) (l : List α) :
    l.filterMap (fun a => if p a then some (f a) else none)
      = (l.filter (fun a => decide (p a))).map f := by
  induction l with
  | nil => rfl
  | cons a l ih =>
    by_cases h : p a
    · simp [List.filterMap_cons, List.filter_cons, h, ih]
    · simp [List.filterMap_cons, List.filter_cons, h, ih]

theorem range_filter_lt (n B : Nat) (h : n ≤ B) :
    (List.range B).filter (fun r => decide (r < n)) = List.range n := by
  rw [show B = n + (B - n) by omega, List.range_add, List.filter_append]
  have h1 : (List.range n).filter (fun r => decide (r < n)) = List.range n :=
    List.filter_eq_self.mpr (by
      intro a ha
      simpa using List.mem_range.mp ha)
  have h2 : ((List.range (B - n)).map (n + ·)).filter
      (fun r => decide (r < n)) = [] :=
    List.filter_eq_nil_iff.mpr (by
      intro a ha
      obtain ⟨k, hk, rfl⟩ := List.mem_map.mp ha
      simp)
  rw [h1, h2, List.append_nil]

/-- C1: for a space of size `n > 0` (within the regime `n < 2^30` where
the source's 32-bit shift arithmetic is well defined), running enough
`next` calls after `iterate()` yields a permutation of the multiset of
valid configurations — each valid configuration exactly once — and the
number of successful `next` calls equals the number of valid indices in
`[0, n)`. The round keys drawn by `reset` are arbitrary. -/
theorem configIterator_enumeration (s : ConfigSpace) (seeds : List Nat)
    (fuel : Nat) (_hn : 0 < s.size) (hbound : s.size < 2 ^ 30)
    (hfuel : 2 ^ (2 * log4Of s.size) ≤ fuel) :
    List.Perm ((s.iterate seeds).run fuel)
        (((List.range s.size).filter (fun i => (s.get i).2)).map
          (fun i => (s.get i).1))
      ∧ ((s.iterate seeds).run fuel).length
        = ((List.range s.size).filter (fun i => (s.get i).2)).length := by
  have h15 : log4Of s.size ≤ 15 := log4Of_le_15 s.size hbound
  have hsB : s.size < 2 ^ (2 * log4Of s.size) := log4Of_size_lt s.size hbound
  have hrun : (s.iterate seeds).run fuel = iterYields (s.iterate seeds) :=
    run_eq_iterYields (2 ^ (2 * log4Of s.size)) (s.iterate seeds) fuel
      (by simp [ConfigSpace.iterate]) (by simpa [ConfigSpace.iterate] using hfuel)
  have hyz : iterYields (s.iterate seeds)
      = ((List.range (2 ^ (2 * log4Of s.size))).map
          (fun k => encrypt_index k (log4Of s.size) seeds)).filterMap
        (fun r =>
          if r < s.size ∧ (s.get r).2 = true then some (s.get r).1 else none) := by
    simp only [iterYields, ConfigSpace.iterate, Nat.sub_zero]
    congr 1
    exact List.map_congr_left (fun k _ => by rw [Nat.zero_add])
  have hperm1 : List.Perm
      ((List.range (2 ^ (2 * log4Of s.size))).map
        (fun k => encrypt_index k (log4Of s.size) seeds))
      (List.range (2 ^ (2 * log4Of s.size))) := by
    have hnodup : ((List.range (2 ^ (2 * log4Of s.size))).map
        (fun k => encrypt_index k (log4Of s.size) seeds)).Nodup := by
      refine (List.nodup_range _).map_on ?_
      intro x hx y hy hxy
      exact encrypt_index_injOn (log4Of s.size) seeds h15 x y
        (List.mem_range.mp hx) (List.mem_range.mp hy) hxy
    have hsub : ((List.range (2 ^ (2 * log4Of s.size))).map
        (fun k => encrypt_index k (log4Of s.size) seeds))
        ⊆ List.range (2 ^ (2 * log4Of s.size)) := by
      intro x hx
      obtain ⟨i, hi, rfl⟩ := List.mem_map.mp hx
      exact List.mem_range.mpr (encrypt_index_lt i (log4Of s.size) seeds h15)
    refine (List.subperm_of_subset hnodup hsub).perm_of_length_le ?_
    simp
  have hperm2 := hperm1.filterMap
    (fun r => if r < s.size ∧ (s.get r).2 = true then some (s.get r).1 else none)
  have hclosed : (List.range (2 ^ (2 * log4Of s.size))).filterMap
      (fun r => if r < s.size ∧ (s.get r).2 = true then some (s.get r).1 else none)
      = ((List.range s.size).filter (fun i => (s.get i).2)).map
        (fun i => (s.get i).1) := by
    rw [filterMap_ite (fun r => r < s.size ∧ (s.get r).2 = true)
      (fun r => (s.get r).1) (List.range (2 ^ (2 * log4Of s.size)))]
    congr 1
    have hstep1 : (List.range (2 ^ (2 * log4Of s.size))).filter
        (fun a => decide (a < s.size ∧ (s.get a).2 = true))
        = (List.range (2 ^ (2 * log4Of s.size))).filter
          (fun a => (s.get a).2 && decide (a < s.size)) := by
      refine List.filter_congr (fun a _ => ?_)
      by_cases h1 : a < s.size <;> cases hga : (s.get a).2 <;> simp [h1, hga]
    rw [hstep1, ← List.filter_filter, range_filter_lt s.size _ (le_of_lt hsB)]
  constructor
  · rw [hrun, hyz, ← hclosed]
    exact hperm2
  · rw [hrun, hyz]
    have := hperm2.length_eq
    rw [hclosed] at this
    rw [this, List.length_map]

theorem configIterator_enumeration_witness :
    (0 < sampleSpace.size ∧ sampleSpace.size < 2 ^ 30
        ∧ 2 ^ (2 * log4Of sampleSpace.size) ≤ 16)
      ∧ ((sampleSpace.iterate [11, 22, 33, 44]).run 16).length
        = ((List.range sampleSpace.size).filter
            (fun i => (sampleSpace.get i).2)).length :=
  ⟨⟨by decide, by decide, by decide⟩,
    (configIterator_enumeration sampleSpace [11, 22, 33, 44] 16
      (by decide) (by decide) (by decide)).2⟩

/-- Abstract inner tuning strategy for a fixed builder: `init` proposes
the first configuration and `submit` consumes the measured performance
and proposes the next; `none` models returning false. `σ` carries the
strategy's internal state. -/
structure TuningStrategy (σ : Type) where
  init : Option (σ × Config)
  submit : σ → Rat → Config → Option (σ × Config)

/-- Model of the `LimitStrategy` state: the inner strategy state plus
the `curr_eval_` counter. -/
structure LimitState (σ : Type) where
  inner : σ
  curr_eval : Nat

/-- Model of `LimitStrategy::init` (src/unnamed/part_010 lines 18-22):
reset `curr_eval_` to 0 and delegate to the inner strategy. -/
def limitInit {σ : Type} (S : TuningStrategy σ) : Option (LimitState σ × Config) :=
  S.init.map (fun sc => (⟨sc.1, 0⟩, sc.2))

/-- Model of `LimitStrategy::submit` (src/unnamed/part_010 lines 24-28):
`inner_.submit(performance, config) && curr_eval_++ < max_eval_`. The
post-increment runs only when the inner call succeeded (`&&`
short-circuits), the call reports true only when the counter was still
below the limit, and the inner call's new config is kept either way. -/
def limitSubmit {σ : Type} (S : TuningStrategy σ) (max_eval : Nat)
    (st : LimitState σ) (performance : Rat) (config : Config) :
    Bool × LimitState σ × Config :=
  match S.submit st.inner performance config with
  | none => (false, st, config)
  | some (s', c') => (decide (st.curr_eval < max_eval), ⟨s', st.curr_eval + 1⟩, c')

/-- Drive `LimitStrategy::submit` through a list of measured
performances, threading the in-out config, and count the calls that
returned true. -/
def limitRunCount {σ : Type} (S : TuningStrategy σ) (max_eval : Nat) :
    LimitState σ → Config → List Rat → Nat
  | _, _, [] => 0
  | st, config, perf :: rest =>
    let r := limitSubmit S max_eval st perf config
    (if r.1 then 1 else 0) + limitRunCount S max_eval r.2.1 r.2.2 rest

theorem limitRunCount_le {σ : Type} (S : TuningStrategy σ) (k : Nat)
    (ps : List Rat) :
    ∀ (st : LimitState σ) (config : Config),
      limitRunCount S k st config ps ≤ k - st.curr_eval := by
  induction ps with
  | nil => intro st config; simp [limitRunCount]
  | cons p rest ih =>
    intro st config
    simp only [limitRunCount]
    cases hs : S.submit st.inner p config with
    | none =>
      have hrec : limitRunCount S k st config rest ≤ k - st.curr_eval :=
        ih st config
      simp [limitSubmit, hs]
      omega
    | some sc =>
      obtain ⟨s', c'⟩ := sc
      have hrec : limitRunCount S k ⟨s', st.curr_eval + 1⟩ c' rest
          ≤ k - (st.curr_eval + 1) := ih ⟨s', st.curr_eval + 1⟩ c'
      by_cases hlt : st.curr_eval < k
      · simp [limitSubmit, hs, hlt]
        omega
      · simp [limitSubmit, hs, hlt]
        omega

/-- A trivial always-succeeding inner strategy over a unit state, used
by witnesses and counterexamples. -/
def unitAlwaysStrategy : TuningStrategy Unit :=
  ⟨some ((), ⟨[]⟩), fun _ _ c => some ((), c)⟩

/-- C5 (counterexample): the claim counts the configuration yielded by a
successful `init` against the `max_evals` budget, but the code does
not: `LimitStrategy(1, inner)` yields one configuration from `init` and
then one more from `submit` — two successful yields, exceeding the
claimed total bound of 1. -/
theorem limitStrategy_claim_counterexample :
    limitInit unitAlwaysStrategy = some (⟨(), 0⟩, ⟨[]⟩)
      ∧ limitRunCount unitAlwaysStrategy 1 ⟨(), 0⟩ ⟨[]⟩ [0] = 1
      ∧ ¬ (1 + limitRunCount unitAlwaysStrategy 1 ⟨(), 0⟩ ⟨[]⟩ [0] ≤ 1) :=
  ⟨rfl, rfl, by decide⟩

/-- C5 (amended): after `init` (which zeroes the counter), `submit`
returns true at most `max_eval` times over the session, for every
sequence of performances; the configuration yielded by a successful
`init` is not counted, so a session can yield up to `max_eval + 1`
configurations in total. -/
theorem limitStrategy_amended {σ : Type} (S : TuningStrategy σ) (k : Nat)
    (st : LimitState σ) (c : Config)
    (h : limitInit S = some (st, c)) :
    st.curr_eval = 0
      ∧ ∀ (config : Config) (ps : List Rat),
          limitRunCount S k st config ps ≤ k := by
  have hz : st.curr_eval = 0 := by
    cases hs : S.init with
    | none => rw [limitInit, hs] at h; cases h
    | some sc =>
      rw [limitInit, hs] at h
      have h2 : some ((⟨sc.1, 0⟩ : LimitState σ), sc.2) = some (st, c) := h
      injection h2 with h3
      have h4 : (⟨sc.1, 0⟩ : LimitState σ) = st := congrArg Prod.fst h3
      rw [← h4]
  refine ⟨hz, fun config ps => ?_⟩
  have := limitRunCount_le S k ps st config
  omega

theorem limitStrategy_amended_witness :
    limitInit unitAlwaysStrategy = some (⟨(), 0⟩, ⟨[]⟩)
      ∧ limitRunCount unitAlwaysStrategy 2 ⟨(), 0⟩ ⟨[]⟩ [0, 0, 0] ≤ 2 :=
  ⟨rfl,
    (limitStrategy_amended unitAlwaysStrategy 2 ⟨(), 0⟩ ⟨[]⟩ rfl).2 ⟨[]⟩ [0, 0, 0]⟩

/-- Lookup of a JSON object key: `obj[name]` on a name → value object. -/
def jsonLookup : List (String × TunableValue) → String → Option TunableValue
  | [], _ => none
  | (k, v) :: rest, name => if k = name then some v else jsonLookup rest name

/-- Model of `Config::to_json`: the object mapping each bound
parameter's name to its value. -/
def configToJson (c : Config) : List (String × TunableValue) :=
  c.entries.map (fun e => (e.1.name, e.2))

/-- The per-parameter loop of `ConfigSpace::load_config`
(src/src/compile.cpp lines 318-335): decode each parameter by name, and
accept the value when it equals the default or some domain entry,
throwing (`none`) otherwise. A name absent from the object decodes as
the empty value. -/
def loadConfigLoop (obj : List (String × TunableValue)) :
    List TunableParam → Option (List (TunableParam × TunableValue))
  | [] => some []
  | p :: ps =>
    let value := (jsonLookup obj p.name).getD .empty
    if p.default_value == value
        || p.values.any (fun allowed => value == allowed) then
      (loadConfigLoop obj ps).map (fun rest => (p, value) :: rest)
    else
      none

/-- Model of `ConfigSpace::load_config`: decode every parameter in
declaration order, then require every restriction to hold; either
failure throws, modelled as `none`. -/
def ConfigSpace.load_config (s : ConfigSpace)
    (obj : List (String × TunableValue)) : Option Config :=
  (loadConfigLoop obj s.params).bind (fun entries =>
    let config : Config := ⟨entries⟩
    if s.restrictions.all (fun r => r config) then some config else none)

/-- Model of `config_to_key` (src/src/tunable.cpp lines 175-192): the
pipe-joined string forms of the config's values in canonical parameter
order. An unbound parameter would throw in the source; callers always
pass complete bindings, and the model renders the empty value. -/
def config_to_key (params : List TunableParam) (config : Config) : String :=
  String.intercalate "|"
    (params.map (fun p => ((config.find p).getD .empty).toText))

/-- One body record of the tuning-cache file: the canonical key, the
config as a JSON object, and the performance. (The date field is
ignored by replay.) -/
structure CacheRecord where
  key : String
  config : List (String × TunableValue)
  performance : Rat
deriving Repr

/-- Lookup in the in-memory `cache_` map (association list in which the
most recent insert shadows older entries). -/
def lookupStr : List (String × Rat) → String → Option Rat
  | [], _ => none
  | (k, v) :: rest, key => if k = key then some v else lookupStr rest key

/-- Model of the `TuningCache` state: the canonical (name-sorted)
parameter order fixed at `initialize`, the in-memory key → performance
map, and the body records of the on-disk file in write order. -/
structure TuningCache where
  parameters : List TunableParam
  cache : List (String × Rat)
  file : List CacheRecord

/-- Insert a parameter into a name-ordered list (helper for the
canonical sort). -/
def insertByName (p : TunableParam) : List TunableParam → List TunableParam
  | [] => [p]
  | q :: rest =>
    if p.name ≤ q.name then p :: q :: rest else q :: insertByName p rest

/-- The canonical parameter order: `initialize` sorts the builder's
parameters by name (src/src/tunable.cpp lines 127-131). `std::sort`
with the name comparator is modelled by an insertion sort, which
produces the same name-ordered result (names are unique within a
space). -/
def sortByName (ps : List TunableParam) : List TunableParam :=
  ps.foldr insertByName []

/-- Model of `TuningCache::find`: look the canonical key up in the
in-memory map. -/
def TuningCache.find (t : TuningCache) (config : Config) : Option Rat :=
  lookupStr t.cache (config_to_key t.parameters config)

/-- Model of `TuningCache::append`: store the performance under the
canonical key in the in-memory map and append one record to the file. -/
def TuningCache.append (t : TuningCache) (config : Config)
    (performance : Rat) : TuningCache :=
  let key := config_to_key t.parameters config
  { t with
    cache := (key, performance) :: t.cache
    file := t.file ++ [⟨key, configToJson config, performance⟩] }

/-- The in-memory map rebuilt by replaying the file's records in order
(`cache_[record.key] = performance`). -/
def replayCache (records : List CacheRecord) : List (String × Rat) :=
  records.foldl (fun m r => (r.key, r.performance) :: m) []

/-- One step of the best-record tracking loop of
`TuningCache::initialize`: strict `>` against the best so far, whose
initial value is negative infinity (beaten by every rational). -/
def bestStep (best : Option CacheRecord) (r : CacheRecord) : Option CacheRecord :=
  match best with
  | none => some r
  | some b => if r.performance > b.performance then some r else some b

/-- The record tracked by the replay loop of `TuningCache::initialize`. -/
def bestRecord (records : List CacheRecord) : Option CacheRecord :=
  records.foldl bestStep none

/-- Result of `TuningCache::initialize` on an existing file: `err` when
`load_config` throws on the best record, `nothing` when the file held no
records (initialize returns false), `best c` when it returns true with
the replayed best configuration. -/
inductive ReopenResult where
  | err : ReopenResult
  | nothing : ReopenResult
  | best : Config → ReopenResult
deriving Repr

/-- Model of `TuningCache::initialize` (src/src/tunable.cpp lines
120-173) on an existing, header-valid file whose body is `records`:
sort the parameters by name, replay every record into the map while
tracking the best performance, and decode the best record's config via
the builder's `load_config`. -/
def TuningCache.reopen (s : ConfigSpace) (records : List CacheRecord) :
    TuningCache × ReopenResult :=
  let t : TuningCache := ⟨sortByName s.params, replayCache records, records⟩
  match bestRecord records with
  | none => (t, .nothing)
  | some r =>
    match s.load_config r.config with
    | none => (t, .err)
    | some c => (t, .best c)

/-- A fresh `TuningCache` as created by `initialize` when the file does
not exist yet: canonical parameters, empty map, empty body. -/
def TuningCache.fresh (s : ConfigSpace) : TuningCache :=
  ⟨sortByName s.params, [], []⟩

/-- Model of the cache-file header fields inspected by
`assert_header_correct` (src/src/tunable.cpp lines 63-118). -/
structure CacheHeader where
  magic : String
  version : String
  kernel_name : String
  device : String
  parameters : List String
deriving DecidableEq, Repr

def HEADER_MAGIC : String := "kernel_launcher"

def HEADER_VERSION : String := "0.1"

/-- Model of `assert_header_correct`: `true` means the header passed,
`false` that the function threw `CacheIncompatible`. The checks run in
source order: magic, version, kernel name, current device, then the
header's parameter-name list against the canonical (name-sorted)
parameter list, compared by length and position-wise names. -/
def assert_header_correct (header : CacheHeader) (kernelName device : String)
    (params : List TunableParam) : Bool :=
  header.magic == HEADER_MAGIC
    && header.version == HEADER_VERSION
    && header.kernel_name == kernelName
    && header.device == device
    && (header.parameters.length == params.length
      && (header.parameters.zip params).all (fun pq => pq.1 == pq.2.name))

theorem zipNames_iff : ∀ (names : List String) (ps : List TunableParam),
    ((names.length == ps.length)
        && (names.zip ps).all (fun pq => pq.1 == pq.2.name)) = true
      ↔ names = ps.map TunableParam.name
  | [], [] => by simp
  | [], _ :: _ => by simp
  | _ :: _, [] => by simp
  | n :: ns, p :: ps => by
    have ih := zipNames_iff ns ps
    simp only [List.length_cons, List.zip_cons_cons, List.all_cons,
      List.map_cons, List.cons.injEq, Bool.and_eq_true, beq_iff_eq]
    constructor
    · rintro ⟨hlen, hn, hall⟩
      refine ⟨hn, ih.mp ?_⟩
      rw [Bool.and_eq_true, beq_iff_eq]
      exact ⟨by omega, hall⟩
    · rintro ⟨hn, hns⟩
      have h2 := ih.mpr hns
      rw [Bool.and_eq_true, beq_iff_eq] at h2
      exact ⟨by omega, hn, h2.2⟩

/-- C8: opening a cache file fails with `CacheIncompatible` iff the
header's magic or version differs from the expected literal, or its
kernel name differs from the builder's, or its device differs from the
current device, or its parameter-name list differs (as an ordered list)
from the builder's name-sorted canonical parameter names; when all of
these match, validation succeeds. -/
theorem cache_header_validation (header : CacheHeader)
    (kernelName device : String) (s : ConfigSpace) :
    assert_header_correct header kernelName device (sortByName s.params) = false
      ↔ (header.magic ≠ HEADER_MAGIC
          ∨ header.version ≠ HEADER_VERSION
          ∨ header.kernel_name ≠ kernelName
          ∨ header.device ≠ device
          ∨ header.parameters
              ≠ (sortByName s.params).map TunableParam.name) := by
  have hlist := zipNames_iff header.parameters (sortByName s.params)
  constructor
  · intro h
    by_contra hcon
    push_neg at hcon
    obtain ⟨h1, h2, h3, h4, h5⟩ := hcon
    rw [assert_header_correct] at h
    simp only [h1, h2, h3, h4, beq_self_eq_true, Bool.true_and] at h
    rw [Bool.eq_false_iff] at h
    exact h (hlist.mpr h5)
  · intro h
    rw [assert_header_correct]
    rcases h with h | h | h | h | h
    · simp [h]
    · simp [h]
    · simp [h]
    · simp [h]
    · rw [Bool.eq_false_iff]
      intro hcon
      rcases Bool.and_eq_true_iff.mp hcon with ⟨-, hl⟩
      exact h (hlist.mp hl)

theorem bestFold_some (l : List CacheRecord) :
    ∀ b : CacheRecord,
      ∃ r, l.foldl bestStep (some b) = some r
        ∧ (r = b ∨ r ∈ l)
        ∧ b.performance ≤ r.performance
        ∧ ∀ q ∈ l, q.performance ≤ r.performance := by
  induction l with
  | nil =>
    intro b
    exact ⟨b, rfl, Or.inl rfl, le_refl _, by simp⟩
  | cons x xs ih =>
    intro b
    simp only [List.foldl_cons, bestStep]
    by_cases hgt : x.performance > b.performance
    · rw [if_pos hgt]
      obtain ⟨r, h1, h2, h3, h4⟩ := ih x
      refine ⟨r, h1, ?_, le_of_lt (lt_of_lt_of_le hgt h3), ?_⟩
      · rcases h2 with h | h
        · exact Or.inr (h ▸ List.mem_cons_self x xs)
        · exact Or.inr (List.mem_cons_of_mem x h)
      · intro q hq
        rcases List.mem_cons.mp hq with h | h
        · exact h ▸ h3
        · exact h4 q h
    · rw [if_neg hgt]
      obtain ⟨r, h1, h2, h3, h4⟩ := ih b
      refine ⟨r, h1, ?_, h3, ?_⟩
      · rcases h2 with h | h
        · exact Or.inl h
        · exact Or.inr (List.mem_cons_of_mem x h)
      · intro q hq
        rcases List.mem_cons.mp hq with h | h
        · exact h ▸ le_trans (le_of_not_lt hgt) h3
        · exact h4 q h

theorem bestRecord_spec (l : List CacheRecord) (h : l ≠ []) :
    ∃ r ∈ l, bestRecord l = some r
      ∧ ∀ q ∈ l, q.performance ≤ r.performance := by
  cases l with
  | nil => exact absurd rfl h
  | cons x xs =>
    obtain ⟨r, h1, h2, h3, h4⟩ := bestFold_some xs x
    refine ⟨r, ?_, ?_, ?_⟩
    · rcases h2 with h | h
      · exact h ▸ List.mem_cons_self x xs
      · exact List.mem_cons_of_mem x h
    · simpa [bestRecord, bestStep] using h1
    · intro q hq
      rcases List.mem_cons.mp hq with h | h
      · exact h ▸ h3
      · exact h4 q h

theorem jsonLookup_configToJson (entries : List (TunableParam × TunableValue))
    (hnames : (entries.map (fun e => e.1.name)).Nodup) :
    ∀ e ∈ entries, jsonLookup (entries.map (fun e => (e.1.name, e.2))) e.1.name
      = some e.2 := by
  induction entries with
  | nil => intro e he; cases he
  | cons x rest ih =>
    intro e he
    rcases List.mem_cons.mp he with h | h
    · subst h
      simp [jsonLookup]
    · have hx : x.1.name ≠ e.1.name := by
        intro hcon
        have : e.1.name ∈ rest.map (fun e => e.1.name) :=
          List.mem_map.mpr ⟨e, h, rfl⟩
        rw [← hcon] at this
        exact (List.nodup_cons.mp (by simpa using hnames)).1 this
      simp only [List.map_cons, jsonLookup, if_neg hx]
      exact ih (by simpa using (List.nodup_cons.mp (by simpa using hnames)).2) e h

theorem loadConfigLoop_roundtrip (obj : List (String × TunableValue))
    (entries : List (TunableParam × TunableValue))
    (hobj : ∀ e ∈ entries, jsonLookup obj e.1.name = some e.2)
    (hdom : ∀ e ∈ entries, e.2 = e.1.default_value ∨ e.2 ∈ e.1.values) :
    loadConfigLoop obj (entries.map Prod.fst) = some entries := by
  induction entries with
  | nil => rfl
  | cons e rest ih =>
    obtain ⟨p, v⟩ := e
    have hv : jsonLookup obj p.name = some v := hobj (p, v) (List.mem_cons_self _ _)
    have hok : (p.default_value == (jsonLookup obj p.name).getD .empty
        || p.values.any (fun allowed =>
          (jsonLookup obj p.name).getD .empty == allowed)) = true := by
      rw [hv]
      simp only [Option.getD_some, Bool.or_eq_true, beq_iff_eq, List.any_eq_true]
      rcases hdom (p, v) (List.mem_cons_self _ _) with h | h
      · exact Or.inl h.symm
      · exact Or.inr ⟨v, h, rfl⟩
    simp only [List.map_cons, loadConfigLoop, hok, if_true,
      ih (fun e he => hobj e (List.mem_cons_of_mem _ he))
        (fun e he => hdom e (List.mem_cons_of_mem _ he)),
      Option.map_some]
    rw [hv]
    rfl

theorem loadConfig_roundtrip (s : ConfigSpace) (c : Config)
    (hc : c.entries.map Prod.fst = s.params)
    (hnames : (s.params.map TunableParam.name).Nodup)
    (hdom : ∀ e ∈ c.entries, e.2 = e.1.default_value ∨ e.2 ∈ e.1.values)
    (hre : ∀ r ∈ s.restrictions, r c = true) :
    s.load_config (configToJson c) = some c := by
  have hnames' : (c.entries.map (fun e => e.1.name)).Nodup := by
    have : c.entries.map (fun e => e.1.name)
        = (c.entries.map Prod.fst).map TunableParam.name := by
      simp [List.map_map]
    rw [this, hc]
    exact hnames
  have hloop : loadConfigLoop (configToJson c) s.params = some c.entries := by
    rw [← hc]
    exact loadConfigLoop_roundtrip (configToJson c) c.entries
      (jsonLookup_configToJson c.entries hnames') hdom
  rw [ConfigSpace.load_config, hloop, Option.some_bind]
  have : (s.restrictions.all (fun r => r ⟨c.entries⟩)) = true := by
    rw [List.all_eq_true]
    intro r hr
    exact hre r hr
  rw [if_pos this]

theorem foldAppend_state (appends : List (Config × Rat)) :
    ∀ t : TuningCache,
      (appends.foldl (fun acc a => acc.append a.1 a.2) t).parameters
          = t.parameters
        ∧ (appends.foldl (fun acc a => acc.append a.1 a.2) t).file
          = t.file ++ appends.map (fun a =>
              ⟨config_to_key t.parameters a.1, configToJson a.1, a.2⟩) := by
  induction appends with
  | nil => intro t; simp
  | cons a rest ih =>
    intro t
    simp only [List.foldl_cons, List.map_cons]
    obtain ⟨hp, hf⟩ := ih (t.append a.1 a.2)
    refine ⟨hp, ?_⟩
    rw [hf]
    simp [TuningCache.append]

theorem replayCache_eq (records : List CacheRecord) :
    ∀ acc : List (String × Rat),
      records.foldl (fun m r => (r.key, r.performance) :: m) acc
        = (records.map (fun r => (r.key, r.performance))).reverse ++ acc := by
  induction records with
  | nil => intro acc; simp
  | cons r rest ih =>
    intro acc
    simp only [List.foldl_cons, List.map_cons, List.reverse_cons]
    rw [ih ((r.key, r.performance) :: acc)]
    simp

theorem lookupStr_eq_find (l : List (String × Rat)) (k : String) :
    lookupStr l k = (l.find? (fun e => e.1 == k)).map (fun e => e.2) := by
  induction l with
  | nil => rfl
  | cons e rest ih =>
    obtain ⟨k0, v0⟩ := e
    by_cases h : k0 = k
    · subst h; simp [lookupStr, List.find?]
    · simp only [lookupStr, if_neg h]
      rw [List.find?_cons_of_neg _ (by simpa using h)]
      exact ih

theorem reopen_eq (s : ConfigSpace) (records : List CacheRecord) :
    TuningCache.reopen s records
      = (⟨sortByName s.params, replayCache records, records⟩,
          match bestRecord records with
          | none => ReopenResult.nothing
          | some r =>
            match s.load_config r.config with
            | none => ReopenResult.err
            | some _c => ReopenResult.best _c) := by
  rw [TuningCache.reopen]
  cases bestRecord records with
  | none => rfl
  | some r =>
    dsimp only
    cases s.load_config r.config with
    | none => rfl
    | some c => rfl

/-- C7: after a nonempty sequence of `append(config_i, perf_i)` calls on
a freshly initialized cache (for complete, domain-respecting,
restriction-satisfying configs over a space with distinct parameter
names), reopening the same file succeeds: `initialize` returns true and
replays an appended configuration whose recorded performance is maximal,
and `find(config_i)` returns the performance recorded for that
configuration's canonical key (the most recently appended record with
that key). -/
theorem tuningCache_replay_spec (s : ConfigSpace)
    (appends : List (Config × Rat)) (h0 : appends ≠ [])
    (hnames : (s.params.map TunableParam.name).Nodup)
    (hcomplete : ∀ a ∈ appends, a.1.entries.map Prod.fst = s.params)
    (hdom : ∀ a ∈ appends, ∀ e ∈ a.1.entries,
      e.2 = e.1.default_value ∨ e.2 ∈ e.1.values)
    (hre : ∀ a ∈ appends, ∀ r ∈ s.restrictions, r a.1 = true) :
    (∃ a ∈ appends,
        (TuningCache.reopen s
            (appends.foldl (fun acc a => acc.append a.1 a.2)
              (TuningCache.fresh s)).file).2 = ReopenResult.best a.1
          ∧ ∀ b ∈ appends, b.2 ≤ a.2)
      ∧ ∀ cp ∈ appends,
          (TuningCache.reopen s
              (appends.foldl (fun acc a => acc.append a.1 a.2)
                (TuningCache.fresh s)).file).1.find cp.1
            = (appends.reverse.find? (fun b =>
                config_to_key (sortByName s.params) b.1
                  == config_to_key (sortByName s.params) cp.1)).map
                (fun b => b.2) := by
  obtain ⟨-, hfile⟩ := foldAppend_state appends (TuningCache.fresh s)
  simp only [TuningCache.fresh, List.nil_append] at hfile
  set recOf : Config × Rat → CacheRecord := fun a =>
    ⟨config_to_key (sortByName s.params) a.1, configToJson a.1, a.2⟩ with hrecOf
  have hfile2 : (appends.foldl (fun acc a => acc.append a.1 a.2)
      (TuningCache.fresh s)).file = appends.map recOf := hfile
  constructor
  · have hne : appends.map recOf ≠ [] := by
      intro hcon
      exact h0 (List.map_eq_nil_iff.mp hcon)
    obtain ⟨r, hrmem, hrbest, hrmax⟩ := bestRecord_spec (appends.map recOf) hne
    obtain ⟨a, hamem, harec⟩ := List.mem_map.mp hrmem
    have hload : s.load_config r.config = some a.1 := by
      rw [← harec]
      exact loadConfig_roundtrip s a.1 (hcomplete a hamem) hnames
        (hdom a hamem) (hre a hamem)
    refine ⟨a, hamem, ?_, ?_⟩
    · rw [hfile2, reopen_eq]
      simp only [hrbest, hload]
    · intro b hb
      have := hrmax (recOf b) (List.mem_map.mpr ⟨b, hb, rfl⟩)
      rw [← harec] at this
      simpa [hrecOf] using this
  · intro cp hcp
    rw [hfile2, reopen_eq]
    show lookupStr (replayCache (appends.map recOf))
        (config_to_key (sortByName s.params) cp.1) = _
    rw [replayCache, replayCache_eq, List.append_nil, lookupStr_eq_find,
      List.map_map, ← List.map_reverse, List.find?_map]
    simp only [Option.map_map]
    rfl

/-- Concrete configs over `sampleSpace` used by the cache witness. -/
def cacheCfg1 : Config :=
  ⟨[(fooParam, .int 1), (barParam, .int 2)]⟩

def cacheCfg2 : Config :=
  ⟨[(fooParam, .int 2), (barParam, .int 1)]⟩

def cacheAppends : List (Config × Rat) :=
  [(cacheCfg1, 1), (cacheCfg2, 5 / 2)]

theorem tuningCache_replay_spec_witness :
    cacheAppends ≠ []
      ∧ (∃ a ∈ cacheAppends,
          (TuningCache.reopen sampleSpace
              (cacheAppends.foldl (fun acc a => acc.append a.1 a.2)
                (TuningCache.fresh sampleSpace)).file).2 = ReopenResult.best a.1
            ∧ ∀ b ∈ cacheAppends, b.2 ≤ a.2) :=
  ⟨by decide,
    (tuningCache_replay_spec sampleSpace cacheAppends (by decide) (by decide)
      (by decide) (by decide) (by decide)).1⟩

/-- Model of the `CachingStrategy` state: the inner strategy state, the
tuning cache, and the first-run stash set by `init`. -/
structure CachingState (σ : Type) where
  inner : σ
  cache : TuningCache
  first_run : Bool
  first_config : Config

/-- Model of `internal_submit` (src/src/tunable.cpp lines 221-236): as
long as the proposed configuration's performance is already in the
cache, feed exactly that cached performance back into the inner
strategy's submit for a new proposal; return the first proposal not in
the cache, or `none` when the inner strategy is exhausted. The source's
unbounded `while` loop is given fuel; the theorems below hold for every
fuel value. -/
def internalSubmit {σ : Type} (S : TuningStrategy σ) (cache : TuningCache) :
    Nat → σ → Config → Option (σ × Config)
  | 0, _, _ => none
  | fuel + 1, s, c =>
    match cache.find c with
    | none => some (s, c)
    | some perf =>
      match S.submit s perf c with
      | none => none
      | some sc => internalSubmit S cache fuel sc.1 sc.2

/-- Model of `CachingStrategy::init` (src/src/tunable.cpp lines
238-253): delegate to the inner init; open the cache; when it held a
best configuration, stash the inner proposal, mark the first run and
emit the cached best; otherwise run the skip chain on the inner
proposal. `none` models returning false or a cache exception. -/
def cachingInit {σ : Type} (S : TuningStrategy σ) (s : ConfigSpace)
    (file : List CacheRecord) (fuel : Nat) :
    Option (CachingState σ × Config) :=
  match S.init with
  | none => none
  | some sc =>
    match TuningCache.reopen s file with
    | (_, .err) => none
    | (t, .best best) =>
      some ({ inner := sc.1, cache := t, first_run := true,
              first_config := sc.2 }, best)
    | (t, .nothing) =>
      (internalSubmit S t fuel sc.1 sc.2).map
        (fun sc2 => ({ inner := sc2.1, cache := t, first_run := false,
                       first_config := ⟨[]⟩ }, sc2.2))

/-- Model of `CachingStrategy::submit` (src/src/tunable.cpp lines
255-269): the first-run response restores the stashed proposal without
appending; every later response appends `(config, performance)` to the
cache and delegates to the inner strategy; both paths then run the
`internal_submit` skip chain. -/
def cachingSubmit {σ : Type} (S : TuningStrategy σ) (fuel : Nat)
    (st : CachingState σ) (performance : Rat) (config : Config) :
    Option (CachingState σ × Config) :=
  if st.first_run then
    (internalSubmit S st.cache fuel st.inner st.first_config).map
      (fun sc => ({ st with first_run := false, inner := sc.1 }, sc.2))
  else
    let cache2 := st.cache.append config performance
    match S.submit st.inner performance config with
    | none => none
    | some sc =>
      (internalSubmit S cache2 fuel sc.1 sc.2).map
        (fun sc2 => ({ st with cache := cache2, inner := sc2.1 }, sc2.2))

/-- The cache-skip chain of the specification: configurations whose
performance is already cached are skipped by re-calling the inner
submit with exactly the cached performance, ending at the first
configuration not in the cache (`some`) or at the inner strategy's
exhaustion (`none`). -/
inductive SkipChain {σ : Type} (S : TuningStrategy σ) (t : TuningCache) :
    σ → Config → Option (σ × Config) → Prop where
  | fresh (s : σ) (c : Config) :
      t.find c = none → SkipChain S t s c (some (s, c))
  | stop (s : σ) (c : Config) (p : Rat) :
      t.find c = some p → S.submit s p c = none → SkipChain S t s c none
  | step (s : σ) (c : Config) (p : Rat) (sc : σ × Config)
      (r : Option (σ × Config)) :
      t.find c = some p → S.submit s p c = some sc →
      SkipChain S t sc.1 sc.2 r → SkipChain S t s c r

theorem internalSubmit_sound {σ : Type} (S : TuningStrategy σ)
    (t : TuningCache) :
    ∀ (fuel : Nat) (s : σ) (c : Config) (res : σ × Config),
      internalSubmit S t fuel s c = some res →
        SkipChain S t s c (some res) ∧ t.find res.2 = none := by
  intro fuel
  induction fuel with
  | zero => intro s c res h; cases h
  | succ fuel ih =>
    intro s c res h
    rw [internalSubmit] at h
    cases hf : t.find c with
    | none =>
      simp only [hf] at h
      cases h
      exact ⟨SkipChain.fresh s c hf, hf⟩
    | some perf =>
      simp only [hf] at h
      cases hs : S.submit s perf c with
      | none =>
        simp only [hs] at h
        exact Option.noConfusion h
      | some sc =>
        simp only [hs] at h
        obtain ⟨hchain, hfind⟩ := ih sc.1 sc.2 res h
        exact ⟨SkipChain.step s c perf sc _ hf hs hchain, hfind⟩

theorem internalSubmit_complete {σ : Type} (S : TuningStrategy σ)
    (t : TuningCache) (s : σ) (c : Config) (r : Option (σ × Config))
    (h : SkipChain S t s c r) :
    ∀ fuel : Nat,
      internalSubmit S t fuel s c = none
        ∨ internalSubmit S t fuel s c = r := by
  induction h with
  | fresh s c hf =>
    intro fuel
    cases fuel with
    | zero => exact Or.inl rfl
    | succ f =>
      right
      rw [internalSubmit]
      simp only [hf]
  | stop s c p hf hs =>
    intro fuel
    cases fuel with
    | zero => exact Or.inl rfl
    | succ f =>
      left
      rw [internalSubmit]
      simp only [hf, hs]
  | step s c p sc r hf hs hchain ih =>
    intro fuel
    cases fuel with
    | zero => exact Or.inl rfl
    | succ f =>
      rw [internalSubmit]
      simp only [hf, hs]
      exact ih f

/-- C6 (amended): on the first-run response, `submit` discards the
passed performance and configuration (so it appends nothing), restores
the stashed proposal, and runs the same cache-skip chain on it — the
restored proposal is returned as-is exactly when its key is not in the
cache, and otherwise the inner strategy IS consulted with the cached
performance; on every later response, `submit` appends
`(config, performance)` to the cache, delegates to the inner strategy
(returning false when it is exhausted), and chains forward until a
configuration not in the cache is found. Every successful result is a
configuration whose key is absent from the final cache. -/
theorem cachingStrategy_submit_amended {σ : Type} (S : TuningStrategy σ)
    (fuel : Nat) (st : CachingState σ) (performance : Rat)
    (config : Config) :
    (st.first_run = true →
      (∀ (p2 : Rat) (c2 : Config),
        cachingSubmit S fuel st performance config
          = cachingSubmit S fuel st p2 c2)
      ∧ (0 < fuel → st.cache.find st.first_config = none →
          cachingSubmit S fuel st performance config
            = some ({ st with first_run := false }, st.first_config))
      ∧ ∀ (st2 : CachingState σ) (cout : Config),
          cachingSubmit S fuel st performance config = some (st2, cout) →
            st2.cache = st.cache
              ∧ SkipChain S st.cache st.inner st.first_config
                  (some (st2.inner, cout))
              ∧ st.cache.find cout = none)
    ∧ (st.first_run = false →
      (S.submit st.inner performance config = none →
        cachingSubmit S fuel st performance config = none)
      ∧ ∀ (st2 : CachingState σ) (cout : Config),
          cachingSubmit S fuel st performance config = some (st2, cout) →
            st2.cache = st.cache.append config performance
              ∧ (∃ sc, S.submit st.inner performance config = some sc
                  ∧ SkipChain S (st.cache.append config performance)
                      sc.1 sc.2 (some (st2.inner, cout)))
              ∧ (st.cache.append config performance).find cout = none) := by
  constructor
  · intro hfr
    refine ⟨fun p2 c2 => by simp [cachingSubmit, hfr], ?_, ?_⟩
    · intro hfuel hfind
      cases fuel with
      | zero => omega
      | succ f =>
        rw [cachingSubmit, if_pos (by simp [hfr]), internalSubmit, hfind]
        rfl
    · intro st2 cout h
      rw [cachingSubmit, if_pos (by simp [hfr])] at h
      cases hIS : internalSubmit S st.cache fuel st.inner st.first_config with
      | none =>
        simp only [hIS, Option.map_none'] at h
        exact Option.noConfusion h
      | some sc =>
        rw [hIS, Option.map_some'] at h
        obtain ⟨hchain, hfind⟩ :=
          internalSubmit_sound S st.cache fuel st.inner st.first_config sc hIS
        have h' : some ({ st with first_run := false, inner := sc.1 }, sc.2)
            = some (st2, cout) := h
        injection h' with h''
        have h1 : ({ st with first_run := false, inner := sc.1 }
            : CachingState σ) = st2 := congrArg Prod.fst h''
        have h2 : sc.2 = cout := congrArg Prod.snd h''
        refine ⟨by rw [← h1], ?_, by rw [← h2]; exact hfind⟩
        have : (st2.inner, cout) = sc := by
          rw [← h1, ← h2]
        rw [this]
        exact hchain
  · intro hfr
    constructor
    · intro hs
      rw [cachingSubmit, if_neg (by simp [hfr])]
      simp only [hs]
    · intro st2 cout h
      rw [cachingSubmit, if_neg (by simp [hfr])] at h
      cases hs : S.submit st.inner performance config with
      | none =>
        simp only [hs] at h
        exact Option.noConfusion h
      | some sc =>
        simp only [hs] at h
        cases hIS : internalSubmit S (st.cache.append config performance)
            fuel sc.1 sc.2 with
        | none =>
          simp only [hIS, Option.map_none'] at h
          exact Option.noConfusion h
        | some sc2 =>
          rw [hIS, Option.map_some'] at h
          obtain ⟨hchain, hfind⟩ :=
            internalSubmit_sound S (st.cache.append config performance)
              fuel sc.1 sc.2 sc2 hIS
          have h' : some (({ st with
              cache := st.cache.append config performance,
              inner := sc2.1 } : CachingState σ), sc2.2)
            = some (st2, cout) := h
          injection h' with h''
          have h1 : ({ st with
              cache := st.cache.append config performance,
              inner := sc2.1 } : CachingState σ) = st2 := congrArg Prod.fst h''
          have h2 : sc2.2 = cout := congrArg Prod.snd h''
          refine ⟨by rw [← h1], ⟨sc, rfl, ?_⟩, by rw [← h2]; exact hfind⟩
          have : (st2.inner, cout) = sc2 := by
            rw [← h1, ← h2]
          rw [this]
          exact hchain

/-- A one-parameter space and two configs used by the caching
counterexample and witnesses. -/
def xParam : TunableParam :=
  ⟨"x", "int", [.int 1, .int 2], .int 1⟩

def spaceX : ConfigSpace :=
  ⟨[xParam], []⟩

def cfgX1 : Config :=
  ⟨[(xParam, .int 1)]⟩

def cfgX2 : Config :=
  ⟨[(xParam, .int 2)]⟩

/-- An inner strategy that proposes `cfgX1` first and `cfgX2` on every
submit. -/
def altStrategy : TuningStrategy Unit :=
  ⟨some ((), cfgX1), fun _ _ _ => some ((), cfgX2)⟩

/-- A cache file holding one record: `cfgX1` with performance 5. -/
def fileX : List CacheRecord :=
  [⟨"1", [("x", .int 1)], 5⟩]

/-- The state produced by `CachingStrategy::init` on `fileX`. -/
def stateX : CachingState Unit :=
  ⟨(), ⟨[xParam], [("1", 5)], fileX⟩, true, cfgX1⟩

/-- C6 (counterexample): the claim says the first-run response restores
the stashed proposal without consulting the inner strategy. After an
`init` that stashed `cfgX1` (whose key "1" is already recorded in the
cache with performance 5), the first-run `submit` runs the skip chain,
consults the inner strategy, and returns `cfgX2`, not the stashed
`cfgX1`. -/
theorem cachingStrategy_claim_counterexample :
    cachingInit altStrategy spaceX fileX 2 = some (stateX, cfgX1)
      ∧ cachingSubmit altStrategy 2 stateX 0 cfgX1
          = some ({ stateX with first_run := false }, cfgX2)
      ∧ cfgX2 ≠ cfgX1 :=
  ⟨rfl, rfl, by decide⟩

/-- The first-run state over an empty (freshly created) cache. -/
def freshStateX : CachingState Unit :=
  ⟨(), TuningCache.fresh spaceX, true, cfgX1⟩

theorem cachingStrategy_submit_amended_witness :
    freshStateX.first_run = true
      ∧ (TuningCache.fresh spaceX).find cfgX1 = none
      ∧ cachingSubmit altStrategy 1 freshStateX 0 cfgX1
          = some ({ freshStateX with first_run := false }, cfgX1) :=
  ⟨rfl, rfl,
    ((cachingStrategy_submit_amended altStrategy 1 freshStateX
        0 cfgX1).1 rfl).2.1 (by omega) rfl⟩

/-- Model of one measurement record of the aggregator: the problem size
(three uint32 components) and the elapsed time in seconds. -/
abbrev Sample := (Nat × Nat × Nat) × Rat

/-- Model of `KernelResults` (include/kernel_launcher/tune_kernel.hpp
lines 10-33): the aggregator parameters and the recorded samples. -/
structure KernelResults where
  min_evals : Nat
  max_evals : Nat
  max_seconds : Rat
  num_outliers : Nat
  records : List Sample

/-- Model of `KernelResults::add`. -/
def KernelResults.add (k : KernelResults) (problem : Nat × Nat × Nat)
    (time : Rat) : KernelResults :=
  { k with records := k.records ++ [(problem, time)] }

/-- The descending-by-time sort performed by `KernelResults::collect`
(`a.second > b.second`). `std::sort` leaves the order of ties
unspecified; the model instantiates it with a stable insertion sort
under the total relation `a.second >= b.second`. -/
def sortDesc (l : List Sample) : List Sample :=
  l.insertionSort (fun a b => b.2 ≤ a.2)

/-- The per-sample workload `x * y * z`, computed in `uint32_t`
arithmetic. -/
def workload (p : Nat × Nat × Nat) : Nat :=
  u32 (u32 (p.1 * p.2.1) * p.2.2)

/-- Model of `KernelResults::collect` (src/unnamed/part_011 lines
16-43): fail below `min_evals + num_outliers` samples; sort by time
from high to low and skip the first `num_outliers` records; fail when
the count is below `max_evals` AND the remaining records' total time is
below `max_seconds`; otherwise return total workload over total time. -/
def KernelResults.collect (k : KernelResults) : Option Rat :=
  if k.records.length < k.min_evals + k.num_outliers then
    none
  else
    let remaining := (sortDesc k.records).drop k.num_outliers
    let total_workload : Rat :=
      (remaining.map (fun p => (workload p.1 : Rat))).sum
    let total_time : Rat := (remaining.map (fun p => p.2)).sum
    if k.records.length < k.max_evals ∧ total_time < k.max_seconds then
      none
    else
      some (total_workload / total_time)

/-- The counterexample aggregator: min_evals = 1, max_evals = 10,
max_seconds = 5, num_outliers = 1, with two samples of times 10 and 1. -/
def kcounter : KernelResults :=
  ⟨1, 10, 5, 1, [((1, 1, 1), 10), ((1, 1, 1), 1)]⟩

/-- The witness aggregator: min_evals = 1, max_evals = 2,
max_seconds = 5, num_outliers = 1, with samples (workload 2, time 1)
and (workload 1, time 3). -/
def kwitness : KernelResults :=
  ⟨1, 2, 5, 1, [((2, 1, 1), 1), ((1, 1, 1), 3)]⟩

theorem kwitness_collect_eq : KernelResults.collect kwitness = some 2 := by
  rw [KernelResults.collect]
  norm_num [kwitness, sortDesc, List.insertionSort, List.orderedInsert,
    workload, u32]

/-- C9 (counterexample): the claim's collection condition reads the
"total elapsed time" over all samples, but the code compares
`max_seconds` against the total AFTER discarding the `num_outliers`
slowest samples. With min_evals = 1, max_evals = 10, max_seconds = 5,
num_outliers = 1 and samples of times 10 and 1, the all-sample total 11
reaches 5 (so the claim says collect returns true), yet the code's
post-discard total is 1 and collect fails. -/
theorem kernelResults_collect_claim_counterexample :
    (kcounter.min_evals + kcounter.num_outliers ≤ kcounter.records.length
        ∧ kcounter.max_seconds ≤ (kcounter.records.map (fun p => p.2)).sum)
      ∧ KernelResults.collect kcounter = none := by
  refine ⟨⟨by decide, by norm_num [kcounter]⟩, ?_⟩
  rw [KernelResults.collect]
  norm_num [kcounter, sortDesc, List.insertionSort, List.orderedInsert,
    workload, u32]

/-- C9 (amended): `collect` succeeds exactly when at least
`min_evals + num_outliers` samples are present and additionally either
the sample count reaches `max_evals` or the total time of the samples
remaining after discarding the `num_outliers` slowest reaches
`max_seconds`; the returned performance is the sum of the remaining
samples' workloads divided by the sum of their times, where the
discarded samples are the `num_outliers` largest-time ones (the
records are sorted by descending time — a permutation of the samples —
and the first `num_outliers` are skipped). -/
theorem kernelResults_collect_amended (k : KernelResults) :
    (k.collect.isSome = true ↔
      (k.min_evals + k.num_outliers ≤ k.records.length
        ∧ (k.max_evals ≤ k.records.length
          ∨ k.max_seconds ≤ (((sortDesc k.records).drop k.num_outliers).map
              (fun p => p.2)).sum)))
    ∧ (∀ q, k.collect = some q →
        q = (((sortDesc k.records).drop k.num_outliers).map
              (fun p => (workload p.1 : Rat))).sum
            / (((sortDesc k.records).drop k.num_outliers).map
              (fun p => p.2)).sum)
    ∧ List.Perm (sortDesc k.records) k.records
    ∧ (sortDesc k.records).Sorted (fun a b => b.2 ≤ a.2) := by
  refine ⟨?_, ?_, List.perm_insertionSort _ _, ?_⟩
  · rw [KernelResults.collect]
    by_cases h1 : k.records.length < k.min_evals + k.num_outliers
    · rw [if_pos h1]
      simp only [Option.isSome_none, Bool.false_eq_true, false_iff]
      omega
    · rw [if_neg h1]
      by_cases h2 : k.records.length < k.max_evals
          ∧ (((sortDesc k.records).drop k.num_outliers).map
            (fun p => p.2)).sum < k.max_seconds
      · rw [if_pos h2]
        simp only [Option.isSome_none, Bool.false_eq_true, false_iff]
        push_neg
        intro _
        constructor <;> [exact h2.1; exact lt_of_lt_of_le h2.2 (le_refl _)]
      · rw [if_neg h2]
        simp only [Option.isSome_some, true_iff]
        push_neg at h2
        refine ⟨by omega, ?_⟩
        by_cases h3 : k.max_evals ≤ k.records.length
        · exact Or.inl h3
        · exact Or.inr (h2 (by omega))
  · intro q hq
    rw [KernelResults.collect] at hq
    by_cases h1 : k.records.length < k.min_evals + k.num_outliers
    · rw [if_pos h1] at hq; cases hq
    · rw [if_neg h1] at hq
      by_cases h2 : k.records.length < k.max_evals
          ∧ (((sortDesc k.records).drop k.num_outliers).map
            (fun p => p.2)).sum < k.max_seconds
      · rw [if_pos h2] at hq; cases hq
      · rw [if_neg h2] at hq
        injection hq with hq
        exact hq.symm
  · haveI : IsTotal Sample (fun a b => b.2 ≤ a.2) :=
      ⟨fun a b => le_total b.2 a.2⟩
    haveI : IsTrans Sample (fun a b => b.2 ≤ a.2) :=
      ⟨fun a b c hab hbc => le_trans hbc hab⟩
    exact List.sorted_insertionSort _ _

theorem kernelResults_collect_amended_witness :
    KernelResults.collect kwitness = some 2
      ∧ (2 : Rat)
        = (((sortDesc kwitness.records).drop kwitness.num_outliers).map
            (fun p => (workload p.1 : Rat))).sum
          / (((sortDesc kwitness.records).drop kwitness.num_outliers).map
            (fun p => p.2)).sum :=
  ⟨kwitness_collect_eq,
    (kernelResults_collect_amended kwitness).2.1 2 kwitness_collect_eq⟩

end KernelLauncher
